import Mathlib

/-!
Verification of `kbase::Lazy<T>` (src/kbase/lazy.h).

The C++ class holds `std::unique_ptr<T> value_`, a `Creator ctor_`
(`std::function<T*()>`), and a `std::once_flag flag_`.  `value()` runs
`std::call_once(flag_, &Lazy::Initialize, this)` and returns `*value_.get()`;
`Initialize` does `value_.reset(ctor_())`; `value_created()` returns
`static_cast<bool>(value_)`.

The embedding below models raw pointers as address/value pairs (null is
`Option.none`), a possibly stateful `std::function` as a function of the
invocation index, and `std::call_once` with its standard semantics: the flag
is set exactly when the callable returns without throwing; an exceptional
invocation propagates the exception and leaves the flag unset, so a later
call runs the callable again.  Ghost counters record how often the creator
was invoked, and how often an invocation returned normally.
-/

namespace kbase

/-- A raw pointer to a constructed `T` object, as produced by a `Creator`:
an address (giving the object its identity) paired with the pointee's value.
A null pointer is represented by `Option.none` at use sites. -/
structure Ptr (T : Type) where
  addr : Nat
  val : T
deriving DecidableEq, Repr

/-- Outcome of one invocation of a `Creator` (`std::function<T*()>`,
lazy.h line 32): the call either throws an exception (identified by a code)
or returns a raw `T*`, which may be null. -/
inductive CreatorResult (T : Type) where
  | throws (e : Nat)
  | returns (p : Option (Ptr T))
deriving DecidableEq

/-- `Lazy<T>::Creator` (lazy.h line 32).  A `std::function` may carry mutable
captured state, so its behaviour is modelled as a function of the invocation
index: `F n` is the outcome of the `(n+1)`-th invocation of the callable. -/
def Creator (T : Type) : Type := Nat → CreatorResult T

/-- The state of one `kbase::Lazy<T>` object (lazy.h lines 72-74).
`flagDone` models `std::once_flag flag_`: it is set exactly when a
`std::call_once` on it has returned, i.e. when an invocation of the callable
returned without throwing.  `calls` and `succCalls` are ghost counters: the
number of invocations of `ctor_`, and the number of those invocations that
returned normally. -/
structure LazyState (T : Type) where
  value_ : Option (Ptr T)
  ctor_ : Creator T
  flagDone : Bool
  calls : Nat
  succCalls : Nat

/-- `explicit Lazy(Creator creator)` (lazy.h lines 40-42): stashes the
creator; no value exists and the once-flag is untouched. -/
def Lazy.mk {T : Type} (creator : Creator T) : LazyState T :=
  { value_ := none, ctor_ := creator, flagDone := false, calls := 0, succCalls := 0 }

/-- `Lazy()` (lazy.h lines 35-37): the creator is `[]() { return new T(); }`,
which always returns a fresh non-null pointer to a default-constructed `T`
(allocation failure is out of scope).  Fresh addresses are provided by the
invocation index. -/
def Lazy.mkDefault (T : Type) [Inhabited T] : LazyState T :=
  Lazy.mk (fun n => .returns (some ⟨n, default⟩))

/-- What `T& value()` yields for its caller: a reference to the pointee of
`value_.get()` (`ok p`), a dereference of a null pointer (`nullDeref`,
undefined behaviour in the C++ source), or an exception thrown by the
creator, propagated unchanged (`thrown e`). -/
inductive ValueResult (T : Type) where
  | ok (p : Ptr T)
  | nullDeref
  | thrown (e : Nat)
deriving DecidableEq

/-- `*value_.get()`: dereference the stored pointer. -/
def deref {T : Type} : Option (Ptr T) → ValueResult T
  | none => .nullDeref
  | some p => .ok p

/-- `T& value()` (lazy.h lines 54-58).  `std::call_once(flag_, &Lazy::Initialize, this)`:
if `flag_` is already set, do nothing; otherwise run `Initialize`
(lazy.h lines 66-69), i.e. `value_.reset(ctor_())`.  If `ctor_()` throws, the
exception propagates to the caller and the flag stays unset (`std::call_once`
treats the invocation as exceptional); otherwise `value_` takes ownership of
the returned pointer — possibly null — and the flag is set.  Finally the
function returns `*value_.get()`. -/
def value {T : Type} (s : LazyState T) : ValueResult T × LazyState T :=
  if s.flagDone then
    (deref s.value_, s)
  else
    match s.ctor_ s.calls with
    | .throws e => (.thrown e, { s with calls := s.calls + 1 })
    | .returns p =>
        (deref p,
         { s with value_ := p, flagDone := true,
                  calls := s.calls + 1, succCalls := s.succCalls + 1 })

/-- `bool value_created() const` (lazy.h lines 60-63):
`static_cast<bool>(value_)`, i.e. whether the unique pointer is non-empty. -/
def value_created {T : Type} (s : LazyState T) : Bool :=
  s.value_.isSome

/-- One public const/non-const operation on the holder. -/
inductive Op where
  | value
  | valueCreated
deriving DecidableEq

/-- The state after performing one operation (`value_created` is a const
member and leaves the state unchanged). -/
def stepOp {T : Type} (s : LazyState T) : Op → LazyState T
  | .value => (value s).2
  | .valueCreated => s

/-- The state after performing a sequence of operations. -/
def runOps {T : Type} (s : LazyState T) : List Op → LazyState T
  | [] => s
  | op :: rest => runOps (stepOp s op) rest

/-- The results of `k` consecutive `value()` calls, with the final state. -/
def runValues {T : Type} (s : LazyState T) : Nat → List (ValueResult T) × LazyState T
  | 0 => ([], s)
  | Nat.succ k =>
      let r := value s
      let rest := runValues r.2 k
      (r.1 :: rest.1, rest.2)

/-- Invariant of every state reachable from a constructor by public
operations: a stored value implies the once-flag is set, and the creator has
returned normally exactly once iff the once-flag is set. -/
def ReachInv {T : Type} (s : LazyState T) : Prop :=
  (s.value_.isSome = true → s.flagDone = true)
  ∧ s.succCalls = (if s.flagDone then 1 else 0)

/-- Phase of one thread during a concurrent run of `value()` on a shared
fresh holder: not yet entered `std::call_once`, running `Initialize` after
winning the flag, blocked inside `call_once` on another thread's run, or
returned from `value()` with a reference (a pointer). -/
inductive Phase (T : Type) where
  | start
  | executing
  | waiting
  | finished (p : Ptr T)
deriving DecidableEq

/-- State of the `std::once_flag`: untouched, owned by the thread currently
running `Initialize`, or passed (a `call_once` returned). -/
inductive FlagState where
  | untouched
  | running (owner : Nat)
  | done
deriving DecidableEq

/-- Global state of `N` threads all calling `value()` on one shared
`Lazy<T>` object: the once-flag, the unique pointer, each thread's phase,
and a ghost count of factory invocations. -/
structure ConcState (T : Type) (N : Nat) where
  flag : FlagState
  value_ : Option (Ptr T)
  threads : Fin N → Phase T
  invocations : Nat

/-- A fresh holder with all `N` threads about to call `value()`. -/
def ConcState.init (T : Type) (N : Nat) : ConcState T N :=
  { flag := .untouched, value_ := none, threads := fun _ => .start,
    invocations := 0 }

/-- Interleaving semantics of `N` threads executing `value()` (lazy.h lines
54-58) concurrently.  `p` is the pointer the factory returns; as in the
claim, the factory constructs successfully.  A thread entering `call_once`
either wins the untouched flag and starts `Initialize`, or finds the flag
owned and blocks, or finds it passed and goes straight to reading the
value.  The owning thread finishes `Initialize` by storing the factory's
pointer, marking the flag passed and returning the reference; `call_once`
makes this publication atomic (happens-before) for the other threads.  A
blocked thread resumes only after the flag has passed, reading the stored
value. -/
inductive Step {T : Type} {N : Nat} (p : Ptr T) :
    ConcState T N → ConcState T N → Prop where
  | win (s : ConcState T N) (i : Fin N) :
      s.threads i = .start → s.flag = .untouched →
      Step p s { s with flag := .running i.val,
                        threads := Function.update s.threads i .executing }
  | block (s : ConcState T N) (i : Fin N) (j : Nat) :
      s.threads i = .start → s.flag = .running j →
      Step p s { s with threads := Function.update s.threads i .waiting }
  | fastPath (s : ConcState T N) (i : Fin N) (q : Ptr T) :
      s.threads i = .start → s.flag = .done → s.value_ = some q →
      Step p s { s with threads := Function.update s.threads i (.finished q) }
  | complete (s : ConcState T N) (i : Fin N) :
      s.threads i = .executing → s.flag = .running i.val →
      Step p s { s with flag := .done, value_ := some p,
                        invocations := s.invocations + 1,
                        threads := Function.update s.threads i (.finished p) }
  | wake (s : ConcState T N) (i : Fin N) (q : Ptr T) :
      s.threads i = .waiting → s.flag = .done → s.value_ = some q →
      Step p s { s with threads := Function.update s.threads i (.finished q) }

/-- The states reachable from a fresh holder by interleaved thread steps. -/
def Reachable {T : Type} {N : Nat} (p : Ptr T) (s : ConcState T N) : Prop :=
  Relation.ReflTransGen (Step p) (ConcState.init T N) s

/-- Inductive invariant of the concurrent runs: before anyone wins the flag
nothing has happened; while the owner runs `Initialize` the factory has not
yet been invoked, the owner is the unique executing thread and nobody has
finished; once the flag has passed, the factory has been invoked exactly
once, the holder stores the factory's pointer, and every finished thread
holds that pointer. -/
def ConcInv {T : Type} {N : Nat} (p : Ptr T) (s : ConcState T N) : Prop :=
  (s.flag = .untouched →
    s.invocations = 0 ∧ s.value_ = none ∧ ∀ i, s.threads i = .start)
  ∧ (∀ j, s.flag = .running j →
      s.invocations = 0 ∧ s.value_ = none
      ∧ (∀ i : Fin N, i.val = j → s.threads i = .executing)
      ∧ (∀ i : Fin N, s.threads i = .start ∨ s.threads i = .waiting
          ∨ (i.val = j ∧ s.threads i = .executing)))
  ∧ (s.flag = .done →
      s.invocations = 1 ∧ s.value_ = some p
      ∧ ∀ i, s.threads i ≠ .executing ∧ ∀ q, s.threads i = .finished q → q = p)

/-- The state of a single-thread run on a fresh holder after the thread has
won the untouched once-flag (first step of a concrete schedule). -/
def concDemo1 : ConcState Nat 1 :=
  { flag := .running 0, value_ := none,
    threads := Function.update (fun _ => Phase.start) ⟨0, Nat.one_pos⟩ .executing,
    invocations := 0 }

/-- The state after that thread has completed `Initialize` with a factory
returning a pointer to `7` at address `0` (second step of the schedule). -/
def concDemo2 : ConcState Nat 1 :=
  { flag := .done, value_ := some ⟨0, 7⟩,
    threads := Function.update concDemo1.threads ⟨0, Nat.one_pos⟩ (.finished ⟨0, 7⟩),
    invocations := 1 }

/-- If a `value()` call returns a reference (neither throws nor dereferences
null), then afterwards the once-flag is set and `value_` holds exactly the
returned pointer. -/
theorem value_ok_state {T : Type} {s s' : LazyState T} {p : Ptr T}
    (h : value s = (.ok p, s')) :
    s'.flagDone = true ∧ s'.value_ = some p := by
  unfold value at h
  by_cases hf : s.flagDone
  · rw [if_pos hf] at h
    injection h with h1 h2
    cases hv : s.value_ with
    | none => rw [hv] at h1; simp [deref] at h1
    | some q =>
        rw [hv] at h1
        simp only [deref, ValueResult.ok.injEq] at h1
        subst h1
        exact ⟨h2 ▸ hf, h2 ▸ hv⟩
  · rw [if_neg hf] at h
    cases hc : s.ctor_ s.calls with
    | throws e => rw [hc] at h; simp at h
    | returns q =>
        rw [hc] at h
        cases q with
        | none => simp [deref] at h
        | some r =>
            simp only [deref] at h
            injection h with h1 h2
            simp only [ValueResult.ok.injEq] at h1
            subst h1
            rw [← h2]
            exact ⟨rfl, rfl⟩

/-- A state whose once-flag is set is a fixed point of `value()`: the call
returns `*value_.get()` and changes nothing. -/
theorem value_of_flagDone {T : Type} {s : LazyState T} (h : s.flagDone = true) :
    value s = (deref s.value_, s) := by
  simp [value, h]

/-- After a `value()` call has returned the reference `p`, every further run
of `value()` calls returns `p` again and leaves the state untouched. -/
theorem runValues_after_ok {T : Type} {s s' : LazyState T} {p : Ptr T}
    (h : value s = (.ok p, s')) (k : Nat) :
    (∀ r ∈ (runValues s' k).1, r = .ok p) ∧ (runValues s' k).2 = s' := by
  obtain ⟨hf, hv⟩ := value_ok_state h
  induction k with
  | zero => simp [runValues]
  | succ k ih =>
      have hfix : value s' = (ValueResult.ok p, s') := by
        rw [value_of_flagDone hf, hv]
        rfl
      simp only [runValues, hfix]
      refine ⟨?_, ih.2⟩
      intro r hr
      rcases List.mem_cons.mp hr with hr | hr
      · exact hr
      · exact ih.1 r hr

/-- C1.  For every type `T`, every factory `F` whose (first) invocation
returns a pointer `p`, and every positive number `k` of `value()` calls on a
holder constructed with `F`: every call returns the value produced by that
single invocation of `F`, the held value is that same object, and the
factory has been invoked exactly once. -/
theorem lazy_C1_custom_factory_once {T : Type} (F : Creator T) (p : Ptr T)
    (hF : F 0 = .returns (some p)) (k : Nat) (hk : 0 < k) :
    (∀ r ∈ (runValues (Lazy.mk F) k).1, r = .ok p)
    ∧ (runValues (Lazy.mk F) k).2.value_ = some p
    ∧ (runValues (Lazy.mk F) k).2.calls = 1 := by
  obtain ⟨k, rfl⟩ := Nat.exists_eq_add_of_lt hk
  have h1 : value (Lazy.mk F) =
      (ValueResult.ok p,
       { value_ := some p, ctor_ := F, flagDone := true, calls := 1, succCalls := 1 }) := by
    simp [value, Lazy.mk, hF, deref]
  obtain ⟨hall, hst⟩ := runValues_after_ok h1 k
  simp only [Nat.zero_add, runValues, h1]
  refine ⟨?_, ?_, ?_⟩
  · intro r hr
    rcases List.mem_cons.mp hr with hr | hr
    · exact hr
    · exact hall r hr
  · rw [hst]
  · rw [hst]

/-- Witness for C1 at `T = Nat`, `F` returning a pointer to `7` at address
`0`, and `k = 3` calls. -/
theorem lazy_C1_witness :
    ((fun _ => CreatorResult.returns (some ⟨0, 7⟩)) : Creator Nat) 0
        = .returns (some ⟨0, 7⟩)
    ∧ 0 < 3
    ∧ ((∀ r ∈ (runValues (Lazy.mk (fun _ => CreatorResult.returns (some ⟨0, 7⟩))) 3).1,
          r = .ok ⟨0, 7⟩)
       ∧ (runValues (Lazy.mk (fun _ => CreatorResult.returns (some ⟨0, 7⟩))) 3).2.value_
            = some ⟨0, 7⟩
       ∧ (runValues (Lazy.mk (fun _ => CreatorResult.returns (some ⟨0, 7⟩))) 3).2.calls = 1) :=
  ⟨rfl, by decide,
   lazy_C1_custom_factory_once (fun _ => CreatorResult.returns (some ⟨0, 7⟩)) ⟨0, 7⟩
     rfl 3 (by decide)⟩

/-- Case analysis on one `value()` call: fast path with the flag already
set, exceptional invocation of the creator, or normal invocation. -/
theorem value_cases {T : Type} (s : LazyState T) :
    (s.flagDone = true ∧ value s = (deref s.value_, s))
    ∨ (s.flagDone = false ∧ ∃ e, s.ctor_ s.calls = .throws e
        ∧ value s = (.thrown e, { s with calls := s.calls + 1 }))
    ∨ (s.flagDone = false ∧ ∃ p, s.ctor_ s.calls = .returns p
        ∧ value s = (deref p, { s with value_ := p, flagDone := true,
                                       calls := s.calls + 1,
                                       succCalls := s.succCalls + 1 })) := by
  by_cases hf : s.flagDone = true
  · exact Or.inl ⟨hf, by simp [value, hf]⟩
  · have hf' : s.flagDone = false := by simpa using hf
    cases hc : s.ctor_ s.calls with
    | throws e =>
        exact Or.inr (Or.inl ⟨hf', e, rfl, by simp [value, hf', hc]⟩)
    | returns p =>
        exact Or.inr (Or.inr ⟨hf', p, rfl, by simp [value, hf', hc]⟩)

/-- Once the flag is set, no public operation changes the state. -/
theorem stepOp_of_flagDone {T : Type} {s : LazyState T} (h : s.flagDone = true)
    (op : Op) : stepOp s op = s := by
  cases op with
  | value =>
      show (value s).2 = s
      rw [value_of_flagDone h]
  | valueCreated => rfl

/-- Once the flag is set, no sequence of public operations changes the
state. -/
theorem runOps_of_flagDone {T : Type} {s : LazyState T} (h : s.flagDone = true)
    (ops : List Op) : runOps s ops = s := by
  induction ops with
  | nil => rfl
  | cons op rest ih => rw [runOps, stepOp_of_flagDone h, ih]

/-- Running a concatenated sequence of operations runs the pieces in
order. -/
theorem runOps_append {T : Type} (s : LazyState T) (l1 l2 : List Op) :
    runOps s (l1 ++ l2) = runOps (runOps s l1) l2 := by
  induction l1 generalizing s with
  | nil => rfl
  | cons op rest ih => simp only [List.cons_append, runOps]; exact ih _

/-- The reachability invariant is preserved by every public operation. -/
theorem ReachInv_stepOp {T : Type} {s : LazyState T} (h : ReachInv s)
    (op : Op) : ReachInv (stepOp s op) := by
  cases op with
  | valueCreated => exact h
  | value =>
      show ReachInv (value s).2
      rcases value_cases s with ⟨hf, hv⟩ | ⟨hf, e, hc, hv⟩ | ⟨hf, p, hc, hv⟩
      · rw [hv]; exact h
      · rw [hv]
        refine ⟨fun hsome => h.1 hsome, ?_⟩
        simpa [hf] using h.2
      · rw [hv]
        refine ⟨fun _ => rfl, ?_⟩
        have := h.2
        rw [hf] at this
        simpa using this

/-- The reachability invariant is preserved by every sequence of public
operations. -/
theorem ReachInv_runOps {T : Type} {s : LazyState T} (h : ReachInv s)
    (ops : List Op) : ReachInv (runOps s ops) := by
  induction ops generalizing s with
  | nil => exact h
  | cons op rest ih => exact ih (ReachInv_stepOp h op)

/-- Both constructors establish the reachability invariant. -/
theorem ReachInv_mk {T : Type} (F : Creator T) : ReachInv (Lazy.mk F) := by
  constructor
  · intro h; simp [Lazy.mk] at h
  · simp [Lazy.mk]

/-- C2 counterexample: the claim quantifies over sequences in which a
factory invocation fails, but with a creator that always throws, two
`value()` calls invoke the factory twice — `std::call_once` leaves the flag
unset after an exceptional invocation, so the next call runs the creator
again. -/
theorem lazy_C2_counterexample :
    ¬ ∀ (F : Creator Nat) (ops : List Op),
        (runOps (Lazy.mk F) ops).calls ≤ 1 := by
  intro h
  have h2 := h (fun _ => .throws 0) [Op.value, Op.value]
  have h3 : (runOps (Lazy.mk ((fun _ => CreatorResult.throws 0) : Creator Nat))
      [Op.value, Op.value]).calls = 2 := rfl
  omega

/-- C2 amended: over the holder's lifetime, for every sequence of `value()`
and `value_created()` calls, the stored factory is invoked *successfully*
(returning normally) at most once; only failed (throwing) invocations can be
followed by another invocation. -/
theorem lazy_C2_amended {T : Type} (F : Creator T) (ops : List Op) :
    (runOps (Lazy.mk F) ops).succCalls ≤ 1 := by
  have h := (ReachInv_runOps (ReachInv_mk F) ops).2
  rw [h]
  by_cases hf : (runOps (Lazy.mk F) ops).flagDone <;> simp [hf]

/-- C3.  After a `value()` call has returned the reference `p`
successfully, every run of `k` further `value()` calls returns the very
same reference (the same pointer, hence the same address/identity) each
time, does not invoke the factory again (the ghost invocation count is
unchanged), and leaves the state untouched. -/
theorem lazy_C3_idempotent_access {T : Type} {s s' : LazyState T} {p : Ptr T}
    (h : value s = (.ok p, s')) (k : Nat) :
    (∀ r ∈ (runValues s' k).1, r = .ok p)
    ∧ (runValues s' k).2.calls = s'.calls
    ∧ (runValues s' k).2 = s' :=
  ⟨(runValues_after_ok h k).1, by rw [(runValues_after_ok h k).2],
   (runValues_after_ok h k).2⟩

/-- Witness for C3 at `T = Nat` with a creator returning a pointer to `5`
at address `1`, and `k = 2` subsequent calls. -/
theorem lazy_C3_witness :
    value (Lazy.mk (fun _ => CreatorResult.returns (some (⟨1, 5⟩ : Ptr Nat))))
      = (.ok ⟨1, 5⟩,
         ⟨some ⟨1, 5⟩, fun _ => CreatorResult.returns (some ⟨1, 5⟩), true, 1, 1⟩)
    ∧ ((∀ r ∈ (runValues
          (⟨some ⟨1, 5⟩, fun _ => CreatorResult.returns (some ⟨1, 5⟩), true, 1, 1⟩
            : LazyState Nat) 2).1, r = .ok ⟨1, 5⟩)
       ∧ (runValues
          (⟨some ⟨1, 5⟩, fun _ => CreatorResult.returns (some ⟨1, 5⟩), true, 1, 1⟩
            : LazyState Nat) 2).2.calls
          = (⟨some ⟨1, 5⟩, fun _ => CreatorResult.returns (some ⟨1, 5⟩), true, 1, 1⟩
            : LazyState Nat).calls
       ∧ (runValues
          (⟨some ⟨1, 5⟩, fun _ => CreatorResult.returns (some ⟨1, 5⟩), true, 1, 1⟩
            : LazyState Nat) 2).2
          = ⟨some ⟨1, 5⟩, fun _ => CreatorResult.returns (some ⟨1, 5⟩), true, 1, 1⟩) :=
  ⟨rfl,
   @lazy_C3_idempotent_access Nat
     (Lazy.mk (fun _ => CreatorResult.returns (some (⟨1, 5⟩ : Ptr Nat))))
     ⟨some ⟨1, 5⟩, fun _ => CreatorResult.returns (some ⟨1, 5⟩), true, 1, 1⟩
     ⟨1, 5⟩ rfl 2⟩

/-- C5.  `value_created()` returns false before any `value()` call (any
sequence of `value_created()` calls alone leaves it false); after the first
successful `value()` call it returns true, and stays true under any further
operations; and once true along a trace it never goes back to false. -/
theorem lazy_C5_created_monotone {T : Type} (F : Creator T)
    (ops ops2 : List Op) (p : Ptr T) (s' : LazyState T) :
    ((∀ op ∈ ops, op = Op.valueCreated) →
      value_created (runOps (Lazy.mk F) ops) = false)
    ∧ (value (runOps (Lazy.mk F) ops) = (.ok p, s') →
      value_created (runOps s' ops2) = true)
    ∧ (value_created (runOps (Lazy.mk F) ops) = true →
      value_created (runOps (Lazy.mk F) (ops ++ ops2)) = true) := by
  refine ⟨?_, ?_, ?_⟩
  · intro hops
    have : runOps (Lazy.mk F) ops = Lazy.mk F := by
      induction ops with
      | nil => rfl
      | cons op rest ih =>
          have hop := hops op (List.mem_cons_self op rest)
          rw [runOps, hop]
          exact ih (fun o ho => hops o (List.mem_cons_of_mem _ ho))
    rw [this]
    rfl
  · intro h
    obtain ⟨hf, hv⟩ := value_ok_state h
    rw [runOps_of_flagDone hf]
    simp [value_created, hv]
  · intro h
    rw [runOps_append]
    have hinv := ReachInv_runOps (ReachInv_mk F) ops
    have hf : (runOps (Lazy.mk F) ops).flagDone = true := by
      apply hinv.1
      simpa [value_created] using h
    rw [runOps_of_flagDone hf]
    exact h

/-- Witness for C5 at `T = Nat` with a creator returning a pointer to `9`
at address `2`, the empty operation sequences, and the state after the
first call. -/
theorem lazy_C5_witness :
    value_created (runOps (Lazy.mk (fun _ =>
        CreatorResult.returns (some (⟨2, 9⟩ : Ptr Nat)))) []) = false
    ∧ value_created (runOps
        (⟨some ⟨2, 9⟩, fun _ => CreatorResult.returns (some (⟨2, 9⟩ : Ptr Nat)),
          true, 1, 1⟩ : LazyState Nat) []) = true :=
  ⟨(lazy_C5_created_monotone (fun _ => CreatorResult.returns (some ⟨2, 9⟩))
      [] [] ⟨2, 9⟩
      ⟨some ⟨2, 9⟩, fun _ => CreatorResult.returns (some ⟨2, 9⟩), true, 1, 1⟩).1
      (by simp),
   (lazy_C5_created_monotone (fun _ => CreatorResult.returns (some ⟨2, 9⟩))
      [] [] ⟨2, 9⟩
      ⟨some ⟨2, 9⟩, fun _ => CreatorResult.returns (some ⟨2, 9⟩), true, 1, 1⟩).2.1
      rfl⟩

/-- C6.  A holder constructed with the default constructor produces, on the
first `value()` call, a reference to a default-constructed `T`. -/
theorem lazy_C6_default_factory (T : Type) [Inhabited T] :
    (value (Lazy.mkDefault T)).1 = .ok ⟨0, (default : T)⟩ :=
  rfl

/-- C7.  If the creator throws on the invocation triggered by a `value()`
call, that very exception — unwrapped — propagates to the caller. -/
theorem lazy_C7_error_propagation {T : Type} (F : Creator T) (e : Nat)
    (hF : F 0 = .throws e) :
    (value (Lazy.mk F)).1 = .thrown e := by
  simp [value, Lazy.mk, hF]

/-- Witness for C7 at `T = Nat` with a creator that throws exception `3`. -/
theorem lazy_C7_witness :
    ((fun _ => CreatorResult.throws 3) : Creator Nat) 0 = .throws 3
    ∧ (value (Lazy.mk ((fun _ => CreatorResult.throws 3) : Creator Nat))).1
        = .thrown 3 :=
  ⟨rfl, lazy_C7_error_propagation (fun _ => CreatorResult.throws 3) 3 rfl⟩

/-- C9.  If the creator throws during a `value()` call, that call leaves the
holder unchanged apart from the ghost invocation count: no value is stored,
`value_created()` still returns false, and the once-flag stays unset, so a
subsequent `value()` call invokes the factory again (retry-on-next-access);
if that second invocation returns a pointer, the second call succeeds. -/
theorem lazy_C9_retry_on_failure {T : Type} (F : Creator T) (e : Nat)
    (p : Ptr T) (hF0 : F 0 = .throws e) (hF1 : F 1 = .returns (some p)) :
    (value (Lazy.mk F)).2.value_ = none
    ∧ value_created (value (Lazy.mk F)).2 = false
    ∧ (value (Lazy.mk F)).2.flagDone = false
    ∧ (value (Lazy.mk F)).2.calls = 1
    ∧ (value (value (Lazy.mk F)).2).2.calls = 2
    ∧ (value (value (Lazy.mk F)).2).1 = .ok p := by
  have h1 : value (Lazy.mk F)
      = (.thrown e, ⟨none, F, false, 1, 0⟩) := by
    simp [value, Lazy.mk, hF0]
  rw [h1]
  refine ⟨rfl, rfl, rfl, rfl, ?_, ?_⟩ <;>
    simp [value, hF1, deref, value_created]

/-- Witness for C9 at `T = Nat` with a creator that throws exception `4`
first and then returns a pointer to `5` at address `0`. -/
theorem lazy_C9_witness :
    ((fun n => if n = 0 then CreatorResult.throws 4
        else CreatorResult.returns (some ⟨0, 5⟩)) : Creator Nat) 0 = .throws 4
    ∧ ((fun n => if n = 0 then CreatorResult.throws 4
        else CreatorResult.returns (some ⟨0, 5⟩)) : Creator Nat) 1
        = .returns (some ⟨0, 5⟩)
    ∧ value_created (value (Lazy.mk ((fun n => if n = 0 then CreatorResult.throws 4
        else CreatorResult.returns (some ⟨0, 5⟩)) : Creator Nat))).2 = false
    ∧ (value (value (Lazy.mk ((fun n => if n = 0 then CreatorResult.throws 4
        else CreatorResult.returns (some ⟨0, 5⟩)) : Creator Nat))).2).2.calls = 2 :=
  ⟨rfl, rfl,
   (lazy_C9_retry_on_failure _ 4 ⟨0, 5⟩ rfl rfl).2.1,
   (lazy_C9_retry_on_failure
      (fun n => if n = 0 then CreatorResult.throws 4
        else CreatorResult.returns (some ⟨0, 5⟩)) 4 ⟨0, 5⟩ rfl rfl).2.2.2.2.1⟩

/-- C10.  The first `value()` call yields a valid reference to exactly the
object the creator produced when the creator returns a non-null pointer;
a creator returning null makes `value()` dereference a null pointer
(undefined behaviour). -/
theorem lazy_C10_null_precondition {T : Type} (F : Creator T) :
    (∀ p : Ptr T, F 0 = .returns (some p) → (value (Lazy.mk F)).1 = .ok p)
    ∧ (F 0 = .returns none → (value (Lazy.mk F)).1 = .nullDeref) := by
  constructor
  · intro p hF
    simp [value, Lazy.mk, hF, deref]
  · intro hF
    simp [value, Lazy.mk, hF, deref]

/-- Witness for C10 at `T = Nat`: a creator returning a pointer to `6` at
address `3`, and a creator returning null. -/
theorem lazy_C10_witness :
    (value (Lazy.mk ((fun _ => CreatorResult.returns (some ⟨3, 6⟩)) : Creator Nat))).1
      = .ok ⟨3, 6⟩
    ∧ (value (Lazy.mk ((fun _ => CreatorResult.returns none) : Creator Nat))).1
      = .nullDeref :=
  ⟨(lazy_C10_null_precondition (fun _ => CreatorResult.returns (some ⟨3, 6⟩))).1
      ⟨3, 6⟩ rfl,
   (lazy_C10_null_precondition (fun _ => CreatorResult.returns none)).2 rfl⟩

/-- The concurrency invariant holds in the initial state. -/
theorem ConcInv_init {T : Type} (p : Ptr T) (N : Nat) :
    ConcInv p (ConcState.init T N) :=
  ⟨fun _ => ⟨rfl, rfl, fun _ => rfl⟩,
   fun _ hj => FlagState.noConfusion hj,
   fun hd => FlagState.noConfusion hd⟩

/-- The concurrency invariant is preserved by every interleaved step. -/
theorem ConcInv_step {T : Type} {N : Nat} {p : Ptr T} {s t : ConcState T N}
    (hinv : ConcInv p s) (hstep : Step p s t) : ConcInv p t := by
  obtain ⟨hu, hr, hd⟩ := hinv
  cases hstep with
  | win i hi hf =>
      obtain ⟨h0, hv, hall⟩ := hu hf
      refine ⟨fun h => FlagState.noConfusion h, ?_, fun h => FlagState.noConfusion h⟩
      intro j hj
      injection hj with hij
      refine ⟨h0, hv, ?_, ?_⟩
      · intro i' hi'
        have hii : i' = i := Fin.ext (hi'.trans hij.symm)
        subst hii
        simp only [Function.update_same]
      · intro i'
        rcases eq_or_ne i' i with rfl | hne
        · exact Or.inr (Or.inr ⟨hij ▸ rfl, Function.update_same i' _ _⟩)
        · simp only [Function.update_noteq hne]
          exact Or.inl (hall i')
  | block i j hi hf =>
      refine ⟨?_, ?_, ?_⟩
      · intro h
        rw [hf] at h
        exact FlagState.noConfusion h
      · intro j' hj'
        obtain ⟨h0, hv, hexec, hdisj⟩ := hr j' hj'
        refine ⟨h0, hv, ?_, ?_⟩
        · intro i' hi'
          have hx := hexec i' hi'
          have hne : i' ≠ i := by
            intro hcon
            rw [hcon, hi] at hx
            exact Phase.noConfusion hx
          simp only [Function.update_noteq hne]
          exact hx
        · intro i'
          rcases eq_or_ne i' i with rfl | hne
          · exact Or.inr (Or.inl (Function.update_same i' _ _))
          · simp only [Function.update_noteq hne]
            exact hdisj i'
      · intro h
        rw [hf] at h
        exact FlagState.noConfusion h
  | fastPath i q hi hf hv =>
      refine ⟨?_, ?_, ?_⟩
      · intro h
        rw [hf] at h
        exact FlagState.noConfusion h
      · intro j' hj'
        rw [hf] at hj'
        exact FlagState.noConfusion hj'
      · intro _
        obtain ⟨h1, hvp, hth⟩ := hd hf
        have hqp : q = p := by
          rw [hv] at hvp
          exact Option.some.inj hvp
        refine ⟨h1, hvp, ?_⟩
        intro i'
        rcases eq_or_ne i' i with rfl | hne
        · simp only [Function.update_same]
          refine ⟨fun h => Phase.noConfusion h, ?_⟩
          intro q' hq'
          injection hq' with hq''
          rw [← hq'']
          exact hqp
        · simp only [Function.update_noteq hne]
          exact hth i'
  | complete i hi hf =>
      obtain ⟨h0, hv, hexec, hdisj⟩ := hr i.val hf
      refine ⟨fun h => FlagState.noConfusion h,
              fun j' hj' => FlagState.noConfusion hj', ?_⟩
      intro _
      refine ⟨by rw [h0], rfl, ?_⟩
      intro i'
      rcases eq_or_ne i' i with rfl | hne
      · simp only [Function.update_same]
        refine ⟨fun h => Phase.noConfusion h, ?_⟩
        intro q' hq'
        injection hq' with hq''
        exact hq''.symm
      · simp only [Function.update_noteq hne]
        rcases hdisj i' with hs' | hw' | ⟨hval, _⟩
        · rw [hs']
          exact ⟨fun h => Phase.noConfusion h, fun q' hq' => Phase.noConfusion hq'⟩
        · rw [hw']
          exact ⟨fun h => Phase.noConfusion h, fun q' hq' => Phase.noConfusion hq'⟩
        · exact absurd (Fin.ext hval) hne
  | wake i q hi hf hv =>
      refine ⟨?_, ?_, ?_⟩
      · intro h
        rw [hf] at h
        exact FlagState.noConfusion h
      · intro j' hj'
        rw [hf] at hj'
        exact FlagState.noConfusion hj'
      · intro _
        obtain ⟨h1, hvp, hth⟩ := hd hf
        have hqp : q = p := by
          rw [hv] at hvp
          exact Option.some.inj hvp
        refine ⟨h1, hvp, ?_⟩
        intro i'
        rcases eq_or_ne i' i with rfl | hne
        · simp only [Function.update_same]
          refine ⟨fun h => Phase.noConfusion h, ?_⟩
          intro q' hq'
          injection hq' with hq''
          rw [← hq'']
          exact hqp
        · simp only [Function.update_noteq hne]
          exact hth i'

/-- Every state reachable from a fresh holder satisfies the concurrency
invariant. -/
theorem ConcInv_reachable {T : Type} {N : Nat} {p : Ptr T}
    {s : ConcState T N} (h : Reachable p s) : ConcInv p s := by
  induction h with
  | refl => exact ConcInv_init p N
  | tail _ hstep ih => exact ConcInv_step ih hstep

/-- C4.  In every interleaved execution of `N` threads calling `value()` on
a fresh holder whose factory constructs `p`: the factory has been invoked at
most once at every moment; every thread that has returned holds a reference
to the very same fully-constructed object `p`, which the holder stores, and
by then the factory has been invoked exactly once; if all `N` threads have
returned, the factory was invoked exactly once; and a blocked thread can
only obtain its reference in a step taken when construction has completed
(the once-flag has passed) — until then it stays blocked. -/
theorem lazy_C4_concurrent_once {T : Type} {N : Nat} (p : Ptr T) (hN : 0 < N)
    (s : ConcState T N) (h : Reachable p s) :
    s.invocations ≤ 1
    ∧ (∀ i q, s.threads i = .finished q →
        q = p ∧ s.invocations = 1 ∧ s.value_ = some p)
    ∧ ((∀ i, ∃ q, s.threads i = .finished q) → s.invocations = 1)
    ∧ (∀ t : ConcState T N, Step p s t → ∀ i q,
        s.threads i = .waiting → t.threads i = .finished q →
        s.flag = .done) := by
  obtain ⟨hu, hr, hd⟩ := ConcInv_reachable h
  have hfin : ∀ i q, s.threads i = .finished q →
      q = p ∧ s.invocations = 1 ∧ s.value_ = some p := by
    intro i q hq
    cases hfl : s.flag with
    | untouched =>
        rw [(hu hfl).2.2 i] at hq
        exact Phase.noConfusion hq
    | running j =>
        rcases (hr j hfl).2.2.2 i with hs' | hw' | ⟨_, he'⟩
        · rw [hs'] at hq; exact Phase.noConfusion hq
        · rw [hw'] at hq; exact Phase.noConfusion hq
        · rw [he'] at hq; exact Phase.noConfusion hq
    | done =>
        obtain ⟨h1, hv, hth⟩ := hd hfl
        exact ⟨(hth i).2 q hq, h1, hv⟩
  refine ⟨?_, hfin, ?_, ?_⟩
  · cases hfl : s.flag with
    | untouched => rw [(hu hfl).1]; exact Nat.zero_le 1
    | running j => rw [(hr j hfl).1]; exact Nat.zero_le 1
    | done => rw [(hd hfl).1]
  · intro hall
    obtain ⟨q, hq⟩ := hall ⟨0, hN⟩
    exact (hfin _ q hq).2.1
  · intro t hstep i q hw hfq
    cases hstep with
    | win i' hi' hf' =>
        rcases eq_or_ne i i' with rfl | hne
        · rw [hw] at hi'; exact Phase.noConfusion hi'
        · simp only [Function.update_noteq hne] at hfq
          rw [hw] at hfq
          exact Phase.noConfusion hfq
    | block i' j' hi' hf' =>
        rcases eq_or_ne i i' with rfl | hne
        · rw [hw] at hi'; exact Phase.noConfusion hi'
        · simp only [Function.update_noteq hne] at hfq
          rw [hw] at hfq
          exact Phase.noConfusion hfq
    | fastPath i' q' hi' hf' hv' => exact hf'
    | complete i' hi' hf' =>
        rcases eq_or_ne i i' with rfl | hne
        · rw [hw] at hi'; exact Phase.noConfusion hi'
        · simp only [Function.update_noteq hne] at hfq
          rw [hw] at hfq
          exact Phase.noConfusion hfq
    | wake i' q' hi' hf' hv' => exact hf'

/-- Witness for C4: one thread on a fresh `Nat` holder whose factory
returns a pointer to `7` at address `0`, after the concrete two-step
schedule win-then-complete; the thread has finished and the factory ran
exactly once. -/
theorem lazy_C4_witness :
    (0 < 1 ∧ Reachable (⟨0, 7⟩ : Ptr Nat) concDemo2)
    ∧ concDemo2.invocations = 1 := by
  have h1 : Step (⟨0, 7⟩ : Ptr Nat) (ConcState.init Nat 1) concDemo1 :=
    Step.win (ConcState.init Nat 1) ⟨0, Nat.one_pos⟩ rfl rfl
  have h2 : Step (⟨0, 7⟩ : Ptr Nat) concDemo1 concDemo2 :=
    Step.complete concDemo1 ⟨0, Nat.one_pos⟩ (by simp [concDemo1]) rfl
  have hreach : Reachable (⟨0, 7⟩ : Ptr Nat) concDemo2 :=
    Relation.ReflTransGen.head h1 (Relation.ReflTransGen.head h2 .refl)
  refine ⟨⟨Nat.one_pos, hreach⟩, ?_⟩
  refine (lazy_C4_concurrent_once (⟨0, 7⟩ : Ptr Nat) Nat.one_pos
    concDemo2 hreach).2.2.1 ?_
  intro i
  refine ⟨⟨0, 7⟩, ?_⟩
  have hi : i = ⟨0, Nat.one_pos⟩ := Subsingleton.elim i _
  rw [hi]
  simp [concDemo2]

end kbase
